import Mathlib

/-!
Shallow embedding of the server-side procedural WAV synthesizer
(the route handler POST and its helper generateAudioWAV) and of the
client-side duration estimator (estimateDuration and the placeholder
duration computed by createPlaceholderAudioFile).

Conventions of the embedding:
* JS numbers are modelled by the exact rationals ℚ.
* Math.sin (2 * Math.PI * x) is modelled by an abstract function
  sinT : ℚ → ℚ; theorems that need it assume that its values stay in
  the interval of the sine, abs (sinT x) ≤ 1.
* The Math.random () draw made at sample index i is modelled by
  noise i : ℚ; theorems that need it assume 0 ≤ noise i < 1.
* Strings are List Char; JS charCodeAt is Char.toNat (the texts in
  play are within the basic plane, where the two agree).
* Math.round is floor (x + 1/2), the JS round-half-up rule.
-/

/-- The whitespace class used by the regex \s and by String.trim
(the ASCII part: space, tab, line feed, carriage return, vertical
tab, form feed). -/
def jsWs (c : Char) : Bool :=
  c == ' ' || c == '\t' || c == '\n' || c == '\r' ||
    c == Char.ofNat 11 || c == Char.ofNat 12

/-- JS String.trim: removes leading and trailing whitespace. -/
def jsTrim (l : List Char) : List Char :=
  ((l.dropWhile jsWs).reverse.dropWhile jsWs).reverse

/-- Worker for regex split on whitespace runs, with JS semantics.
The first argument is true while we stand inside a whitespace run whose
preceding token has already been emitted; the accumulator holds the
characters of the current token in reverse. -/
def wsAux : Bool → List Char → List Char → List (List Char)
  | _, [], acc => [acc.reverse]
  | sk, c :: cs, acc =>
      if jsWs c then
        if sk then wsAux true cs [] else acc.reverse :: wsAux true cs []
      else wsAux false cs (c :: acc)

/-- JS text.split on the regex of one-or-more whitespace: every maximal
whitespace run is a separator; a leading or trailing run contributes an
empty token, and the empty string splits to one empty token. -/
def wsplit (l : List Char) : List (List Char) := wsAux false l []

/-- Server word count: text.split on whitespace runs, keeping only the
words of positive length, as in generateAudioWAV. -/
def serverWordCount (l : List Char) : ℕ :=
  ((wsplit l).filter (fun w => decide (0 < w.length))).length

/-- Client word count: text.split on whitespace runs with no filtering,
as in the client-side estimateDuration. -/
def clientWordCount (l : List Char) : ℕ := (wsplit l).length

/-- Spec-side word counter: the number of maximal nonempty runs of
non-whitespace characters, counted directly with an in-word flag. -/
def cwAux : Bool → List Char → ℕ
  | _, [] => 0
  | inWord, c :: cs =>
      if jsWs c then cwAux false cs
      else (if inWord then 0 else 1) + cwAux true cs

/-- The number of whitespace-separated words of a text. -/
def countWords (l : List Char) : ℕ := cwAux false l

/-- Server duration in seconds: ceil (max 2 ((wordCount / (155 * rate)) * 60)),
from generateAudioWAV. -/
def durationServer (text : List Char) (rate : ℚ) : ℕ :=
  (Int.ceil (max 2 (((serverWordCount text : ℚ) / (155 * rate)) * 60))).toNat

/-- The fixed sample rate of the synthesizer. -/
def sampleRate : ℕ := 44100

/-- The fixed channel count. -/
def numChannels : ℕ := 1

/-- The fixed bit depth. -/
def bitsPerSample : ℕ := 16

/-- charIndex = Math.floor (progress * text.length) with
progress = i / numSamples. -/
def charIndexAt (textLen numSamples i : ℕ) : ℕ :=
  (Int.floor (((i : ℚ) / (numSamples : ℚ)) * (textLen : ℚ))).toNat

/-- The vowel alphabet of the synthesizer. -/
def vowels : List Char := "aeiouAEIOU".toList

/-- Vowel test for a character. -/
def isVowel (c : Char) : Bool := vowels.contains c

/-- baseCharFreq = 200 + (charCode mod 300). -/
def baseCharFreq (c : Char) : ℚ := 200 + ((c.toNat % 300 : ℕ) : ℚ)

/-- The character the synthesizer looks at for sample index i:
text.charAt (floor (progress * text.length)). The index is in range for
every request the validator admits, so the default character of getD is
never consulted there. -/
def charAt (text : List Char) (numSamples i : ℕ) : Char :=
  text.getD (charIndexAt text.length numSamples i) ' '

/-- The vowel arm of the branch: three sine partials at freq1,
freq1 * 2.1 and freq1 * 3.2 with freq1 = baseCharFreq * (1 + pitch * 0.5),
mixed at weights 0.6, 0.3 and 0.1. sinT x models Math.sin (2 * Math.PI * x). -/
def vowelSampleAt (sinT : ℚ → ℚ) (c : Char) (pitch time : ℚ) : ℚ :=
  sinT (baseCharFreq c * (1 + pitch * 0.5) * time) * 0.6 +
    sinT (baseCharFreq c * (1 + pitch * 0.5) * 2.1 * time) * 0.3 +
    sinT (baseCharFreq c * (1 + pitch * 0.5) * 3.2 * time) * 0.1

/-- The consonant arm of the branch: one sine at
baseCharFreq * (1.5 + pitch * 0.8) weighted 0.7, plus the noise draw r
recentred to [-0.5, 0.5) and scaled by 0.3. -/
def consSampleAt (sinT : ℚ → ℚ) (c : Char) (pitch time r : ℚ) : ℚ :=
  sinT (baseCharFreq c * (1.5 + pitch * 0.8) * time) * 0.7 + (r - 0.5) * 0.3

/-- The per-sample waveform value produced by the character branch of
generateAudioWAV, before rate modulation, envelope and volume: 0 on a
space, the three-partial vowel mix on a vowel, the sine plus noise arm
otherwise. -/
def branchSample (sinT : ℚ → ℚ) (noise : ℕ → ℚ) (text : List Char)
    (pitch : ℚ) (numSamples i : ℕ) : ℚ :=
  if charAt text numSamples i = ' ' then 0
  else if isVowel (charAt text numSamples i) then
    vowelSampleAt sinT (charAt text numSamples i) pitch ((i : ℚ) / (sampleRate : ℚ))
  else
    consSampleAt sinT (charAt text numSamples i) pitch
      ((i : ℚ) / (sampleRate : ℚ)) (noise i)

/-- rateModulation = 1 + (rate - 1) * 0.2. -/
def rateModulation (rate : ℚ) : ℚ := 1 + (rate - 1) * 0.2

/-- fadeTime = min 0.1 (duration * 0.05). -/
def fadeTimeOf (duration : ℕ) : ℚ := min 0.1 ((duration : ℚ) * 0.05)

/-- The amplitude envelope at a given time: linear fade-in below
fadeTime, linear fade-out above duration - fadeTime, 1 in between. -/
def envAt (duration : ℕ) (time : ℚ) : ℚ :=
  if time < fadeTimeOf duration then time / fadeTimeOf duration
  else if (duration : ℚ) - fadeTimeOf duration < time then
    ((duration : ℚ) - time) / fadeTimeOf duration
  else 1

/-- The fully scaled sample value at index i: branch value times rate
modulation times (volume * envelope * 0.3). -/
def finalSample (sinT : ℚ → ℚ) (noise : ℕ → ℚ) (text : List Char)
    (rate pitch volume : ℚ) (duration i : ℕ) : ℚ :=
  branchSample sinT noise text pitch (sampleRate * duration) i *
    rateModulation rate *
    (volume * envAt duration ((i : ℚ) / (sampleRate : ℚ)) * 0.3)

/-- Math.round: floor (x + 1/2). -/
def jsRound (x : ℚ) : ℤ := Int.floor (x + 0.5)

/-- The emitted 16-bit sample: Math.max (-32768, Math.min (32767,
Math.round (sample * 32767))). -/
def intSample (sinT : ℚ → ℚ) (noise : ℕ → ℚ) (text : List Char)
    (rate pitch volume : ℚ) (duration i : ℕ) : ℤ :=
  max (-32768) (min 32767
    (jsRound (finalSample sinT noise text rate pitch volume duration i * 32767)))

/-- The sample buffer of a synthesis call: the emitted 16-bit values at
indices 0 .. sampleRate * duration - 1. -/
def sampleBuffer (sinT : ℚ → ℚ) (noise : ℕ → ℚ) (text : List Char)
    (rate pitch volume : ℚ) (duration : ℕ) : List ℤ :=
  (List.range (sampleRate * duration)).map
    (fun i => intSample sinT noise text rate pitch volume duration i)

/-- Little-endian byte pair of a 16-bit write (DataView.setUint16). -/
def u16le (n : ℕ) : List ℕ := [n % 256, n / 256 % 256]

/-- Little-endian byte quadruple of a 32-bit write (DataView.setUint32). -/
def u32le (n : ℕ) : List ℕ :=
  [n % 256, n / 256 % 256, n / 65536 % 256, n / 16777216 % 256]

/-- Little-endian byte pair of a signed 16-bit write (DataView.setInt16):
the value is reduced modulo 2^16 and stored as two bytes. -/
def i16le (v : ℤ) : List ℕ := [(v % 65536).toNat % 256, (v % 65536).toNat / 256]

/-- dataSize = numSamples * numChannels * (bitsPerSample / 8). -/
def dataSizeOf (numSamples : ℕ) : ℕ :=
  numSamples * numChannels * (bitsPerSample / 8)

/-- fileSize = 44 + dataSize. -/
def fileSizeOf (numSamples : ℕ) : ℕ := 44 + dataSizeOf numSamples

/-- The 44-byte WAV header written by generateAudioWAV, as the byte
sequence of its thirteen consecutive writes: the RIFF marker, the chunk
size fileSize - 8, the WAVE and fmt markers, the fmt subchunk, the data
marker and the data subchunk size. -/
def wavHeader (numSamples : ℕ) : List ℕ :=
  [82, 73, 70, 70] ++ u32le (fileSizeOf numSamples - 8) ++ [87, 65, 86, 69] ++
    [102, 109, 116, 32] ++ u32le 16 ++ u16le 1 ++ u16le numChannels ++
    u32le sampleRate ++ u32le (sampleRate * numChannels * (bitsPerSample / 8)) ++
    u16le (numChannels * (bitsPerSample / 8)) ++ u16le bitsPerSample ++
    [100, 97, 116, 97] ++ u32le (dataSizeOf numSamples)

/-- The full WAV container returned by generateAudioWAV: the header
followed by the samples, each serialized as two little-endian bytes. -/
def generateAudioWAV (sinT : ℚ → ℚ) (noise : ℕ → ℚ) (text : List Char)
    (rate pitch volume : ℚ) : List ℕ :=
  let duration := durationServer text rate
  wavHeader (sampleRate * duration) ++
    (sampleBuffer sinT noise text rate pitch volume duration).flatMap i16le

/-- Read a little-endian u32 at a byte offset of a byte sequence. -/
def readU32 (bytes : List ℕ) (off : ℕ) : ℕ :=
  bytes.getD off 0 + 256 * bytes.getD (off + 1) 0 +
    65536 * bytes.getD (off + 2) 0 + 16777216 * bytes.getD (off + 3) 0

/-- Decode two bytes as a little-endian signed 16-bit value
(DataView.getInt16). -/
def decodeI16 (b0 b1 : ℕ) : ℤ :=
  let u := b0 + 256 * b1
  if u < 32768 then (u : ℤ) else (u : ℤ) - 65536

/-- Rate normalization of the route handler. -/
def normalizeRate (r : ℚ) : ℚ := max 0.1 (min 10 r)

/-- Pitch normalization of the route handler. -/
def normalizePitch (p : ℚ) : ℚ := max 0 (min 2 p)

/-- Volume normalization of the route handler. -/
def normalizeVolume (v : ℚ) : ℚ := max 0 (min 1 v)

/-- The POST route handler: rejects a missing text (none also models a
non-string body field, which fails the same check), a text that trims
to nothing, and a text longer than 5000 characters; otherwise it
normalizes the settings and returns the generated container. -/
def postHandler (sinT : ℚ → ℚ) (noise : ℕ → ℚ) (text? : Option (List Char))
    (rate pitch volume : ℚ) : Except String (List ℕ) :=
  match text? with
  | none => .error "Text is required and must be a non-empty string"
  | some t =>
    if (jsTrim t).length = 0 then
      .error "Text is required and must be a non-empty string"
    else if 5000 < t.length then
      .error "Text must be less than 5000 characters"
    else
      .ok (generateAudioWAV sinT noise t (normalizeRate rate)
            (normalizePitch pitch) (normalizeVolume volume))

/-- The client-side estimateDuration: (wordCount / (155 * rate)) * 60,
where the word count keeps the empty tokens of the split. -/
def estimateDuration (text : List Char) (rate : ℚ) : ℚ :=
  ((clientWordCount text : ℚ) / (155 * rate)) * 60

/-- The duration used by createPlaceholderAudioFile:
max 1 (ceil (estimateDuration text rate)). -/
def clientPlaceholderDuration (text : List Char) (rate : ℚ) : ℕ :=
  (max 1 (Int.ceil (estimateDuration text rate))).toNat

/-- A concrete admissible model of the sine: constantly 0. -/
def sinZero : ℚ → ℚ := fun _ => 0

/-- A concrete admissible model of the noise source: constantly 0. -/
def noiseZero : ℕ → ℚ := fun _ => 0

/-- A second concrete admissible noise source: constantly 1/2. -/
def noiseHalf : ℕ → ℚ := fun _ => 1/2

/-! ### Byte-level lemmas -/

theorem u32le_length (n : ℕ) : (u32le n).length = 4 := rfl

theorem u16le_length (n : ℕ) : (u16le n).length = 2 := rfl

theorem i16le_length (v : ℤ) : (i16le v).length = 2 := rfl

/-- Reading back the four bytes of a little-endian u32 write recovers the
value whenever it fits in 32 bits. -/
theorem readU32_append_u32le (A B : List ℕ) (n k : ℕ) (hA : A.length = k)
    (hn : n < 4294967296) : readU32 (A ++ (u32le n ++ B)) k = n := by
  subst hA
  have h0 : (A ++ (u32le n ++ B)).getD A.length 0 = n % 256 := by
    rw [List.getD_append_right _ _ _ _ (le_refl _), Nat.sub_self]
    rfl
  have h1 : (A ++ (u32le n ++ B)).getD (A.length + 1) 0 = n / 256 % 256 := by
    rw [List.getD_append_right _ _ _ _ (Nat.le_add_right _ _), Nat.add_sub_cancel_left]
    rfl
  have h2 : (A ++ (u32le n ++ B)).getD (A.length + 2) 0 = n / 65536 % 256 := by
    rw [List.getD_append_right _ _ _ _ (Nat.le_add_right _ _), Nat.add_sub_cancel_left]
    rfl
  have h3 : (A ++ (u32le n ++ B)).getD (A.length + 3) 0 = n / 16777216 % 256 := by
    rw [List.getD_append_right _ _ _ _ (Nat.le_add_right _ _), Nat.add_sub_cancel_left]
    rfl
  rw [readU32, h0, h1, h2, h3]
  omega

theorem wavHeader_length (ns : ℕ) : (wavHeader ns).length = 44 := by
  simp [wavHeader, u32le, u16le]

/-- The header, followed by anything, carries fileSize - 8 at offset 4. -/
theorem readU32_header_4 (ns : ℕ) (R : List ℕ) (hns : ns < 1000000000) :
    readU32 (wavHeader ns ++ R) 4 = fileSizeOf ns - 8 := by
  have hsz : fileSizeOf ns - 8 < 4294967296 := by
    simp only [fileSizeOf, dataSizeOf, numChannels, bitsPerSample]
    omega
  have hshape : wavHeader ns ++ R =
      [82, 73, 70, 70] ++ (u32le (fileSizeOf ns - 8) ++
        ([87, 65, 86, 69] ++ [102, 109, 116, 32] ++ u32le 16 ++ u16le 1 ++
          u16le numChannels ++ u32le sampleRate ++
          u32le (sampleRate * numChannels * (bitsPerSample / 8)) ++
          u16le (numChannels * (bitsPerSample / 8)) ++ u16le bitsPerSample ++
          [100, 97, 116, 97] ++ u32le (dataSizeOf ns) ++ R)) := by
    simp [wavHeader]
  rw [hshape]
  exact readU32_append_u32le _ _ _ _ rfl hsz

/-- The header, followed by anything, carries dataSize at offset 40. -/
theorem readU32_header_40 (ns : ℕ) (R : List ℕ) (hns : ns < 1000000000) :
    readU32 (wavHeader ns ++ R) 40 = dataSizeOf ns := by
  have hsz : dataSizeOf ns < 4294967296 := by
    simp only [dataSizeOf, numChannels, bitsPerSample]
    omega
  have hshape : wavHeader ns ++ R =
      ([82, 73, 70, 70] ++ u32le (fileSizeOf ns - 8) ++ [87, 65, 86, 69] ++
        [102, 109, 116, 32] ++ u32le 16 ++ u16le 1 ++ u16le numChannels ++
        u32le sampleRate ++ u32le (sampleRate * numChannels * (bitsPerSample / 8)) ++
        u16le (numChannels * (bitsPerSample / 8)) ++ u16le bitsPerSample ++
        [100, 97, 116, 97]) ++ (u32le (dataSizeOf ns) ++ R) := by
    simp [wavHeader]
  have hlen : ([82, 73, 70, 70] ++ u32le (fileSizeOf ns - 8) ++ [87, 65, 86, 69] ++
      [102, 109, 116, 32] ++ u32le 16 ++ u16le 1 ++ u16le numChannels ++
      u32le sampleRate ++ u32le (sampleRate * numChannels * (bitsPerSample / 8)) ++
      u16le (numChannels * (bitsPerSample / 8)) ++ u16le bitsPerSample ++
      [100, 97, 116, 97] : List ℕ).length = 40 := by
    simp [u32le, u16le]
  rw [hshape]
  exact readU32_append_u32le _ _ _ _ hlen hsz

theorem length_flatMap_i16le (l : List ℤ) : (l.flatMap i16le).length = 2 * l.length := by
  induction l with
  | nil => rfl
  | cons v t ih => simp [List.flatMap_cons, ih, i16le]; omega

theorem sampleBuffer_length (sinT : ℚ → ℚ) (noise : ℕ → ℚ) (text : List Char)
    (rate pitch volume : ℚ) (duration : ℕ) :
    (sampleBuffer sinT noise text rate pitch volume duration).length =
      sampleRate * duration := by
  simp [sampleBuffer]

theorem generateAudioWAV_length (sinT : ℚ → ℚ) (noise : ℕ → ℚ) (text : List Char)
    (rate pitch volume : ℚ) :
    (generateAudioWAV sinT noise text rate pitch volume).length =
      44 + 2 * (sampleRate * durationServer text rate) := by
  simp only [generateAudioWAV, List.length_append, wavHeader_length,
    length_flatMap_i16le, sampleBuffer_length]

/-! ### Word-count lemmas -/

/-- The words kept by the filter inside wsAux are at most the remaining
characters plus the characters of the token already begun. -/
theorem wsAux_filter_length_le (l : List Char) : ∀ (sk : Bool) (acc : List Char),
    ((wsAux sk l acc).filter (fun w => decide (0 < w.length))).length ≤
      l.length + acc.length := by
  induction l with
  | nil =>
    intro sk acc
    cases acc with
    | nil => simp [wsAux]
    | cons a as => simp [wsAux, List.filter_cons]
  | cons c cs ih =>
    intro sk acc
    by_cases hc : jsWs c
    · cases sk with
      | true =>
        have h := ih true []
        simp only [wsAux, hc, if_true]
        simp only [List.length_nil, Nat.add_zero] at h
        simp only [List.length_cons]
        omega
      | false =>
        have h := ih true []
        simp only [List.length_nil, Nat.add_zero] at h
        simp only [wsAux, hc, if_true, Bool.false_eq_true, if_false, List.filter_cons]
        by_cases hacc : (0 < acc.length)
        · simp [hacc]
          omega
        · simp [hacc]
          omega
    · have h := ih false (c :: acc)
      simp only [wsAux, hc, if_false, Bool.false_eq_true]
      simp only [List.length_cons] at h ⊢
      omega

/-- The server word count is at most the text length. -/
theorem serverWordCount_le_length (l : List Char) : serverWordCount l ≤ l.length := by
  have := wsAux_filter_length_le l false []
  simpa [serverWordCount, wsplit] using this

/-! ### Duration lemmas -/

/-- ceil of a max against 2 is the max of 2 and the ceil. -/
theorem ceil_max_two (q : ℚ) : Int.ceil (max 2 q) = max 2 (Int.ceil q) := by
  have h2 : Int.ceil ((2:ℚ)) = 2 := by norm_num
  rcases le_total (2:ℚ) q with h | h
  · rw [max_eq_right h]
    have hle : (2:ℤ) ≤ Int.ceil q := h2 ▸ Int.ceil_le_ceil h
    rw [max_eq_right hle]
  · rw [max_eq_left h]
    have hle : Int.ceil q ≤ 2 := h2 ▸ Int.ceil_le_ceil h
    rw [h2, max_eq_left hle]

/-- The server duration, rewritten as the claim states it:
max 2 (ceil ((wordCount / (155 * rate)) * 60)). -/
theorem durationServer_eq (text : List Char) (rate : ℚ) :
    durationServer text rate =
      max 2 (Int.ceil (((serverWordCount text : ℚ) / (155 * rate)) * 60)).toNat := by
  rw [durationServer, ceil_max_two]
  omega

/-- The server duration is at least 2 seconds. -/
theorem two_le_durationServer (text : List Char) (rate : ℚ) :
    2 ≤ durationServer text rate := by
  rw [durationServer_eq]
  exact le_max_left _ _

/-- For valid requests, the server duration is at most 19355 seconds. -/
theorem durationServer_le (text : List Char) (rate : ℚ)
    (hlen : text.length ≤ 5000) (hr : 1/10 ≤ rate) :
    durationServer text rate ≤ 19355 := by
  have hwc : serverWordCount text ≤ 5000 :=
    le_trans (serverWordCount_le_length text) hlen
  have hrpos : (0:ℚ) < 155 * rate := by linarith
  have hq : ((serverWordCount text : ℚ) / (155 * rate)) * 60 ≤ 19355 := by
    rw [div_mul_eq_mul_div, div_le_iff₀ hrpos]
    have hwcq : ((serverWordCount text : ℚ)) ≤ 5000 := by
      exact_mod_cast hwc
    nlinarith
  have hceil : Int.ceil (((serverWordCount text : ℚ) / (155 * rate)) * 60) ≤ 19355 := by
    calc Int.ceil (((serverWordCount text : ℚ) / (155 * rate)) * 60)
        ≤ Int.ceil ((19355 : ℚ)) := Int.ceil_le_ceil hq
      _ = 19355 := by norm_num
  rw [durationServer_eq]
  omega

/-- Relation between the filtered split of wsAux and the direct word
counter cwAux. -/
theorem wsAux_filter_eq_cwAux (l : List Char) : ∀ (sk : Bool) (acc : List Char),
    (sk = true → acc = []) →
    ((wsAux sk l acc).filter (fun w => decide (0 < w.length))).length =
      (if sk then cwAux false l
       else if acc.isEmpty then cwAux false l else 1 + cwAux true l) := by
  induction l with
  | nil =>
    intro sk acc hsk
    cases sk with
    | true => simp [wsAux, hsk rfl, cwAux]
    | false =>
      cases acc with
      | nil => simp [wsAux, cwAux]
      | cons a as => simp [wsAux, cwAux, List.filter_cons]
  | cons c cs ih =>
    intro sk acc hsk
    by_cases hc : jsWs c
    · cases sk with
      | true =>
        have h := ih true [] (fun _ => rfl)
        simp only [if_true] at h
        simp only [wsAux, hc, if_true, h, cwAux]
      | false =>
        have h := ih true [] (fun _ => rfl)
        simp only [if_true] at h
        simp only [wsAux, hc, if_true, Bool.false_eq_true, if_false, List.filter_cons]
        cases acc with
        | nil => simp [h, cwAux, hc]
        | cons a as =>
          simp [h, cwAux, hc]
          omega
    · cases sk with
      | true =>
        have hacc := hsk rfl
        subst hacc
        have h := ih false [c] (by simp)
        simp only [Bool.false_eq_true, if_false, List.isEmpty_cons] at h
        simp only [wsAux, hc, if_false, Bool.false_eq_true, h, cwAux]
        simp [hc]
      | false =>
        have h := ih false (c :: acc) (by simp)
        simp only [Bool.false_eq_true, if_false, List.isEmpty_cons] at h
        simp only [wsAux, hc, if_false, Bool.false_eq_true, h, cwAux]
        cases acc with
        | nil => simp [hc, cwAux]
        | cons a as => simp [hc, cwAux]

/-- The server word count agrees with the number of maximal nonempty
non-whitespace runs. -/
theorem serverWordCount_eq_countWords (l : List Char) :
    serverWordCount l = countWords l := by
  have := wsAux_filter_eq_cwAux l false [] (by simp)
  simpa [serverWordCount, wsplit, countWords] using this

/-! ### Claim theorems, first group -/

/-- C1: for every valid synthesis request, the encoder emits a 44-byte
header, the u32 at offset 4 is the container length minus 8, and the
u32 at offset 40 is twice the number of emitted samples. -/
theorem wav_header_size_fields (sinT : ℚ → ℚ) (noise : ℕ → ℚ) (text : List Char)
    (rate pitch volume : ℚ) (hlen : text.length ≤ 5000) (hr : 1/10 ≤ rate) :
    (wavHeader (sampleRate * durationServer text rate)).length = 44 ∧
    readU32 (generateAudioWAV sinT noise text rate pitch volume) 4 =
      (generateAudioWAV sinT noise text rate pitch volume).length - 8 ∧
    readU32 (generateAudioWAV sinT noise text rate pitch volume) 40 =
      2 * (sampleBuffer sinT noise text rate pitch volume
            (durationServer text rate)).length := by
  have hd : durationServer text rate ≤ 19355 := durationServer_le text rate hlen hr
  have hns : sampleRate * durationServer text rate < 1000000000 := by
    rw [sampleRate]; omega
  have hgen : generateAudioWAV sinT noise text rate pitch volume =
      wavHeader (sampleRate * durationServer text rate) ++
        (sampleBuffer sinT noise text rate pitch volume
          (durationServer text rate)).flatMap i16le := by
    simp only [generateAudioWAV]
  refine ⟨wavHeader_length _, ?_, ?_⟩
  · rw [hgen, readU32_header_4 _ _ hns, List.length_append, wavHeader_length,
      length_flatMap_i16le, sampleBuffer_length]
    simp only [fileSizeOf, dataSizeOf, numChannels, bitsPerSample]
    omega
  · rw [hgen, readU32_header_40 _ _ hns, sampleBuffer_length]
    simp only [dataSizeOf, numChannels, bitsPerSample]
    omega

theorem wav_header_size_fields_witness :
    ("hi".toList.length ≤ 5000) ∧ ((1:ℚ)/10 ≤ 1) ∧
    ((wavHeader (sampleRate * durationServer "hi".toList 1)).length = 44 ∧
     readU32 (generateAudioWAV sinZero noiseZero "hi".toList 1 1 1) 4 =
       (generateAudioWAV sinZero noiseZero "hi".toList 1 1 1).length - 8 ∧
     readU32 (generateAudioWAV sinZero noiseZero "hi".toList 1 1 1) 40 =
       2 * (sampleBuffer sinZero noiseZero "hi".toList 1 1 1
             (durationServer "hi".toList 1)).length) :=
  ⟨by decide, by norm_num,
    wav_header_size_fields sinZero noiseZero "hi".toList 1 1 1 (by decide) (by norm_num)⟩

/-- C2: for valid text and rate, the duration is
max 2 (ceil ((wordCount / (155 * rate)) * 60)) where wordCount counts
the nonempty tokens of the whitespace split (equivalently, the maximal
non-whitespace runs), and the result is an integer at least 2. -/
theorem duration_formula (text : List Char) (rate : ℚ)
    (hr1 : 1/10 ≤ rate) (hr2 : rate ≤ 10) :
    serverWordCount text = countWords text ∧
    durationServer text rate =
      max 2 (Int.ceil (((countWords text : ℚ) / (155 * rate)) * 60)).toNat ∧
    2 ≤ durationServer text rate := by
  refine ⟨serverWordCount_eq_countWords text, ?_, two_le_durationServer text rate⟩
  rw [durationServer_eq, serverWordCount_eq_countWords]

theorem duration_formula_witness :
    ((1:ℚ)/10 ≤ 1) ∧ ((1:ℚ) ≤ 10) ∧
    (serverWordCount "hi there".toList = countWords "hi there".toList ∧
     durationServer "hi there".toList 1 =
       max 2 (Int.ceil (((countWords "hi there".toList : ℚ) / (155 * 1)) * 60)).toNat ∧
     2 ≤ durationServer "hi there".toList 1) :=
  ⟨by norm_num, by norm_num,
    duration_formula "hi there".toList 1 (by norm_num) (by norm_num)⟩

/-- C3: the sample buffer holds exactly 44100 * duration samples and the
container is exactly 44 + 2 * (44100 * duration) bytes; in the scenario
of the text Hello world with neutral settings the duration is 2 s, the
buffer holds 88200 samples and the container is 176444 bytes. -/
theorem buffer_and_container_length (sinT : ℚ → ℚ) (noise : ℕ → ℚ) :
    (∀ (text : List Char) (rate pitch volume : ℚ),
      (sampleBuffer sinT noise text rate pitch volume
        (durationServer text rate)).length = 44100 * durationServer text rate ∧
      (generateAudioWAV sinT noise text rate pitch volume).length =
        44 + 2 * (44100 * durationServer text rate)) ∧
    durationServer "Hello world".toList 1 = 2 ∧
    (sampleBuffer sinT noise "Hello world".toList 1 1 1
      (durationServer "Hello world".toList 1)).length = 88200 ∧
    (generateAudioWAV sinT noise "Hello world".toList 1 1 1).length = 176444 := by
  have hdur : durationServer "Hello world".toList 1 = 2 := by
    rw [durationServer, show serverWordCount "Hello world".toList = 2 from by decide]
    norm_num
    rfl
  have hgenlen : ∀ (text : List Char) (rate pitch volume : ℚ),
      (generateAudioWAV sinT noise text rate pitch volume).length =
        44 + 2 * (44100 * durationServer text rate) := by
    intro text rate pitch volume
    rw [generateAudioWAV_length]
    rfl
  refine ⟨fun text rate pitch volume => ⟨?_, hgenlen text rate pitch volume⟩, hdur, ?_, ?_⟩
  · rw [sampleBuffer_length]
    rfl
  · rw [sampleBuffer_length, hdur]
    rfl
  · rw [hgenlen, hdur]

/-! ### Quantization lemmas -/

/-- Serializing an in-range 16-bit value little-endian and decoding the
two bytes recovers the value: no wraparound happens in serialization. -/
theorem decode_i16le_roundtrip (v : ℤ) (h1 : -32768 ≤ v) (h2 : v ≤ 32767) :
    decodeI16 ((i16le v).getD 0 0) ((i16le v).getD 1 0) = v := by
  have e0 : (i16le v).getD 0 0 = (v % 65536).toNat % 256 := rfl
  have e1 : (i16le v).getD 1 0 = (v % 65536).toNat / 256 := rfl
  rw [e0, e1]
  show (if (((v % 65536).toNat % 256 + 256 * ((v % 65536).toNat / 256) : ℕ)) < 32768
        then (((v % 65536).toNat % 256 + 256 * ((v % 65536).toNat / 256) : ℕ) : ℤ)
        else (((v % 65536).toNat % 256 + 256 * ((v % 65536).toNat / 256) : ℕ) : ℤ) - 65536) = v
  split <;> omega

/-- C4: every emitted 16-bit sample lies in [-32768, 32767], and its
little-endian serialization decodes back to the same value, so the
clamped quantization never wraps or overflows. -/
theorem sample_range_no_wrap (sinT : ℚ → ℚ) (noise : ℕ → ℚ) (text : List Char)
    (rate pitch volume : ℚ) (duration i : ℕ) :
    (-32768 ≤ intSample sinT noise text rate pitch volume duration i ∧
      intSample sinT noise text rate pitch volume duration i ≤ 32767) ∧
    decodeI16 ((i16le (intSample sinT noise text rate pitch volume duration i)).getD 0 0)
        ((i16le (intSample sinT noise text rate pitch volume duration i)).getD 1 0) =
      intSample sinT noise text rate pitch volume duration i := by
  have hlo : -32768 ≤ intSample sinT noise text rate pitch volume duration i :=
    le_max_left _ _
  have hhi : intSample sinT noise text rate pitch volume duration i ≤ 32767 :=
    max_le (by norm_num) (min_le_left _ _)
  exact ⟨⟨hlo, hhi⟩, decode_i16le_roundtrip _ hlo hhi⟩

/-! ### Validation lemmas -/

/-- Dropping a prefix never lengthens a list. -/
theorem dropWhile_length_le {α : Type} (p : α → Bool) (l : List α) :
    (l.dropWhile p).length ≤ l.length := by
  induction l with
  | nil => simp
  | cons c cs ih =>
    by_cases h : p c <;> simp [List.dropWhile_cons, h] <;> omega

/-- Trimming never lengthens a string. -/
theorem jsTrim_length_le (l : List Char) : (jsTrim l).length ≤ l.length := by
  rw [jsTrim, List.length_reverse]
  calc ((l.dropWhile jsWs).reverse.dropWhile jsWs).length
      ≤ (l.dropWhile jsWs).reverse.length := dropWhile_length_le _ _
    _ = (l.dropWhile jsWs).length := List.length_reverse _
    _ ≤ l.length := dropWhile_length_le _ _

/-- C6: a request whose text is missing, empty after trimming, or whose
trimmed length exceeds 5000 is rejected with an error and no audio bytes
are produced for it. -/
theorem invalid_text_rejected (sinT : ℚ → ℚ) (noise : ℕ → ℚ)
    (text? : Option (List Char)) (rate pitch volume : ℚ)
    (h : text? = none ∨
      ∃ t, text? = some t ∧ ((jsTrim t).length = 0 ∨ 5000 < (jsTrim t).length)) :
    ∃ msg, postHandler sinT noise text? rate pitch volume = Except.error msg := by
  rcases h with h | ⟨t, ht, htrim | htrim⟩
  · subst h
    exact ⟨_, rfl⟩
  · subst ht
    rw [postHandler]
    rw [if_pos htrim]
    exact ⟨_, rfl⟩
  · subst ht
    have hlen : 5000 < t.length := lt_of_lt_of_le htrim (jsTrim_length_le t)
    rw [postHandler]
    rw [if_neg (by omega), if_pos hlen]
    exact ⟨_, rfl⟩

theorem invalid_text_rejected_witness :
    ((none : Option (List Char)) = none ∨
      ∃ t, (none : Option (List Char)) = some t ∧
        ((jsTrim t).length = 0 ∨ 5000 < (jsTrim t).length)) ∧
    ∃ msg, postHandler sinZero noiseZero none 1 1 1 = Except.error msg :=
  ⟨Or.inl rfl, invalid_text_rejected sinZero noiseZero none 1 1 1 (Or.inl rfl)⟩

/-! ### Envelope lemmas -/

theorem fadeTimeOf_pos (d : ℕ) (hd : 1 ≤ d) : 0 < fadeTimeOf d := by
  have h1 : (1:ℚ) ≤ d := by exact_mod_cast hd
  rw [fadeTimeOf]
  apply lt_min (by norm_num)
  nlinarith

theorem fadeTimeOf_eq (d : ℕ) (hd : 2 ≤ d) : fadeTimeOf d = 1/10 := by
  have h2 : (2:ℚ) ≤ d := by exact_mod_cast hd
  rw [fadeTimeOf, min_eq_left (by nlinarith)]
  norm_num

theorem envAt_nonneg (d : ℕ) (hd : 1 ≤ d) (t : ℚ) (h0 : 0 ≤ t) (h1 : t ≤ d) :
    0 ≤ envAt d t := by
  have hft := fadeTimeOf_pos d hd
  rw [envAt]
  split_ifs with ha hb
  · exact div_nonneg h0 hft.le
  · apply div_nonneg _ hft.le
    linarith
  · norm_num

theorem envAt_le_one (d : ℕ) (hd : 1 ≤ d) (t : ℚ) (h0 : 0 ≤ t) (h1 : t ≤ d) :
    envAt d t ≤ 1 := by
  have hft := fadeTimeOf_pos d hd
  rw [envAt]
  split_ifs with ha hb
  · rw [div_le_one hft]
    linarith
  · rw [div_le_one hft]
    linarith
  · exact le_refl 1

/-! ### Sample magnitude lemmas -/

theorem abs_vowelSampleAt_le (sinT : ℚ → ℚ) (c : Char) (pitch time : ℚ)
    (hsin : ∀ x, |sinT x| ≤ 1) : |vowelSampleAt sinT c pitch time| ≤ 1 := by
  have h1 := abs_le.mp (hsin (baseCharFreq c * (1 + pitch * 0.5) * time))
  have h2 := abs_le.mp (hsin (baseCharFreq c * (1 + pitch * 0.5) * 2.1 * time))
  have h3 := abs_le.mp (hsin (baseCharFreq c * (1 + pitch * 0.5) * 3.2 * time))
  rw [vowelSampleAt, abs_le]
  constructor <;> linarith [h1.1, h1.2, h2.1, h2.2, h3.1, h3.2]

theorem abs_consSampleAt_le (sinT : ℚ → ℚ) (c : Char) (pitch time r : ℚ)
    (hsin : ∀ x, |sinT x| ≤ 1) (hr0 : 0 ≤ r) (hr1 : r < 1) :
    |consSampleAt sinT c pitch time r| ≤ 1 := by
  have h1 := abs_le.mp (hsin (baseCharFreq c * (1.5 + pitch * 0.8) * time))
  rw [consSampleAt, abs_le]
  constructor <;> linarith [h1.1, h1.2]

theorem abs_branchSample_le_one (sinT : ℚ → ℚ) (noise : ℕ → ℚ) (text : List Char)
    (pitch : ℚ) (N i : ℕ) (hsin : ∀ x, |sinT x| ≤ 1)
    (hn0 : 0 ≤ noise i) (hn1 : noise i < 1) :
    |branchSample sinT noise text pitch N i| ≤ 1 := by
  rw [branchSample]
  split_ifs with ha hb
  · norm_num
  · exact abs_vowelSampleAt_le _ _ _ _ hsin
  · exact abs_consSampleAt_le _ _ _ _ _ hsin hn0 hn1

theorem rateModulation_bounds (rate : ℚ) (hr1 : 1/10 ≤ rate) (hr2 : rate ≤ 10) :
    0 < rateModulation rate ∧ rateModulation rate ≤ 14/5 := by
  rw [rateModulation]
  constructor <;> linarith

/-- The scaled sample is bounded by 0.84 times the envelope value. -/
theorem abs_finalSample_le_env (sinT : ℚ → ℚ) (noise : ℕ → ℚ) (text : List Char)
    (rate pitch volume : ℚ) (d i : ℕ)
    (hsin : ∀ x, |sinT x| ≤ 1) (hn0 : 0 ≤ noise i) (hn1 : noise i < 1)
    (hr1 : 1/10 ≤ rate) (hr2 : rate ≤ 10) (hv1 : 0 ≤ volume) (hv2 : volume ≤ 1)
    (hd : 1 ≤ d) (hi : i < sampleRate * d) :
    |finalSample sinT noise text rate pitch volume d i| ≤
      21/25 * envAt d ((i : ℚ) / (sampleRate : ℚ)) := by
  have hsr : ((sampleRate : ℕ) : ℚ) = 44100 := by norm_num [sampleRate]
  have ht0 : 0 ≤ (i : ℚ) / (sampleRate : ℚ) := by
    apply div_nonneg (by positivity)
    rw [hsr]; norm_num
  have htd : (i : ℚ) / (sampleRate : ℚ) ≤ d := by
    rw [hsr, div_le_iff₀ (by norm_num : (0:ℚ) < 44100)]
    have : (i:ℚ) < 44100 * d := by
      have := hi
      rw [sampleRate] at this
      exact_mod_cast this
    linarith
  have he0 : 0 ≤ envAt d ((i : ℚ) / (sampleRate : ℚ)) := envAt_nonneg d hd _ ht0 htd
  have hb := abs_branchSample_le_one sinT noise text pitch (sampleRate * d) i hsin hn0 hn1
  have hm := rateModulation_bounds rate hr1 hr2
  have habsm : |rateModulation rate| ≤ 14/5 := abs_le.mpr ⟨by linarith [hm.1], hm.2⟩
  rw [finalSample, abs_mul, abs_mul]
  have hvol : |volume * envAt d ((i : ℚ) / (sampleRate : ℚ)) * 0.3| =
      volume * envAt d ((i : ℚ) / (sampleRate : ℚ)) * 0.3 :=
    abs_of_nonneg (by positivity)
  rw [hvol]
  have hbm : |branchSample sinT noise text pitch (sampleRate * d) i| *
      |rateModulation rate| ≤ 14/5 := by
    nlinarith [abs_nonneg (branchSample sinT noise text pitch (sampleRate * d) i),
      abs_nonneg (rateModulation rate)]
  have hprod : |branchSample sinT noise text pitch (sampleRate * d) i| *
        |rateModulation rate| *
        (volume * envAt d ((i : ℚ) / (sampleRate : ℚ)) * 0.3) ≤
      14/5 * (volume * envAt d ((i : ℚ) / (sampleRate : ℚ)) * 0.3) :=
    mul_le_mul_of_nonneg_right hbm (by positivity)
  nlinarith [hprod, he0, hv1, hv2]

/-- C10: with parameters in their clamped ranges the pre-quantization
sample magnitude never exceeds 0.84, the clamp in the quantization step
never alters a value, and every emitted sample lies within 27525 of
zero. -/
theorem headroom_clamp_noop (sinT : ℚ → ℚ) (noise : ℕ → ℚ) (text : List Char)
    (rate pitch volume : ℚ) (i : ℕ)
    (hsin : ∀ x, |sinT x| ≤ 1) (hnoise : ∀ j, 0 ≤ noise j ∧ noise j < 1)
    (hr1 : 1/10 ≤ rate) (hr2 : rate ≤ 10) (hp1 : 0 ≤ pitch) (hp2 : pitch ≤ 2)
    (hv1 : 0 ≤ volume) (hv2 : volume ≤ 1)
    (hi : i < sampleRate * durationServer text rate) :
    |finalSample sinT noise text rate pitch volume (durationServer text rate) i| ≤
      21/25 ∧
    intSample sinT noise text rate pitch volume (durationServer text rate) i =
      jsRound (finalSample sinT noise text rate pitch volume
        (durationServer text rate) i * 32767) ∧
    |intSample sinT noise text rate pitch volume (durationServer text rate) i| ≤
      27525 := by
  have hd : 1 ≤ durationServer text rate := le_trans (by norm_num)
    (two_le_durationServer text rate)
  have hsr : ((sampleRate : ℕ) : ℚ) = 44100 := by norm_num [sampleRate]
  have ht0 : 0 ≤ (i : ℚ) / (sampleRate : ℚ) := by
    apply div_nonneg (by positivity)
    rw [hsr]; norm_num
  have htd : (i : ℚ) / (sampleRate : ℚ) ≤ durationServer text rate := by
    rw [hsr, div_le_iff₀ (by norm_num : (0:ℚ) < 44100)]
    have hcast : (i:ℚ) < 44100 * durationServer text rate := by
      have := hi
      rw [sampleRate] at this
      exact_mod_cast this
    linarith
  have he1 : envAt (durationServer text rate) ((i : ℚ) / (sampleRate : ℚ)) ≤ 1 :=
    envAt_le_one _ hd _ ht0 htd
  have he0 : 0 ≤ envAt (durationServer text rate) ((i : ℚ) / (sampleRate : ℚ)) :=
    envAt_nonneg _ hd _ ht0 htd
  have habs : |finalSample sinT noise text rate pitch volume
      (durationServer text rate) i| ≤ 21/25 := by
    have h := abs_finalSample_le_env sinT noise text rate pitch volume
      (durationServer text rate) i hsin (hnoise i).1 (hnoise i).2 hr1 hr2 hv1 hv2 hd hi
    nlinarith
  have hpair := abs_le.mp habs
  have hxu : finalSample sinT noise text rate pitch volume
      (durationServer text rate) i * 32767 ≤ 688107/25 := by
    nlinarith [hpair.2]
  have hxl : -(688107/25 : ℚ) ≤ finalSample sinT noise text rate pitch volume
      (durationServer text rate) i * 32767 := by
    nlinarith [hpair.1]
  have hru : jsRound (finalSample sinT noise text rate pitch volume
      (durationServer text rate) i * 32767) ≤ 27524 := by
    have hlt : jsRound (finalSample sinT noise text rate pitch volume
        (durationServer text rate) i * 32767) < (27525:ℤ) := by
      rw [jsRound]
      apply Int.floor_lt.mpr
      push_cast
      linarith
    omega
  have hrl : -27525 ≤ jsRound (finalSample sinT noise text rate pitch volume
      (durationServer text rate) i * 32767) := by
    rw [jsRound]
    apply Int.le_floor.mpr
    push_cast
    linarith
  have heq : intSample sinT noise text rate pitch volume
      (durationServer text rate) i =
      jsRound (finalSample sinT noise text rate pitch volume
        (durationServer text rate) i * 32767) := by
    rw [intSample, min_eq_right (by linarith),
      max_eq_right (show (-32768:ℤ) ≤ jsRound (finalSample sinT noise text rate
        pitch volume (durationServer text rate) i * 32767) from by linarith)]
  refine ⟨habs, heq, ?_⟩
  rw [heq, abs_le]
  exact ⟨by linarith, by linarith⟩

theorem headroom_clamp_noop_witness :
    (∀ x, |sinZero x| ≤ 1) ∧ (∀ j, 0 ≤ noiseZero j ∧ noiseZero j < 1) ∧
    ((1:ℚ)/10 ≤ 1) ∧ ((1:ℚ) ≤ 10) ∧ ((0:ℚ) ≤ 1) ∧ ((1:ℚ) ≤ 2) ∧
    (0 < sampleRate * durationServer "ok".toList 1) ∧
    (|finalSample sinZero noiseZero "ok".toList 1 1 1
        (durationServer "ok".toList 1) 0| ≤ 21/25 ∧
     intSample sinZero noiseZero "ok".toList 1 1 1
        (durationServer "ok".toList 1) 0 =
       jsRound (finalSample sinZero noiseZero "ok".toList 1 1 1
         (durationServer "ok".toList 1) 0 * 32767) ∧
     |intSample sinZero noiseZero "ok".toList 1 1 1
        (durationServer "ok".toList 1) 0| ≤ 27525) := by
  have hdur : durationServer "ok".toList 1 = 2 := by
    rw [durationServer, show serverWordCount "ok".toList = 1 from by decide]
    norm_num
    rfl
  refine ⟨fun x => by simp [sinZero], fun j => by simp [noiseZero],
    by norm_num, by norm_num, by norm_num, by norm_num, by rw [hdur, sampleRate]; norm_num, ?_⟩
  exact headroom_clamp_noop sinZero noiseZero "ok".toList 1 1 1 0
    (fun x => by simp [sinZero]) (fun j => by simp [noiseZero])
    (by norm_num) (by norm_num) (by norm_num) (by norm_num) (by norm_num) (by norm_num)
    (by rw [hdur, sampleRate]; norm_num)

/-- C9: with the duration floor of 2 the fade window is 0.1 s; the
envelope follows the three-piece formula, the emitted sample at time 0
is exactly 0, the emitted sample nearest time = duration is within 6
quantization steps of 0, and the envelope is strictly increasing on the
fade-in window and strictly decreasing on the fade-out window. -/
theorem envelope_properties (sinT : ℚ → ℚ) (noise : ℕ → ℚ) (text : List Char)
    (rate pitch volume : ℚ)
    (hsin : ∀ x, |sinT x| ≤ 1) (hnoise : ∀ j, 0 ≤ noise j ∧ noise j < 1)
    (hr1 : 1/10 ≤ rate) (hr2 : rate ≤ 10) (hv1 : 0 ≤ volume) (hv2 : volume ≤ 1) :
    fadeTimeOf (durationServer text rate) = 1/10 ∧
    (∀ t : ℚ, t < fadeTimeOf (durationServer text rate) →
      envAt (durationServer text rate) t = t / fadeTimeOf (durationServer text rate)) ∧
    (∀ t : ℚ, fadeTimeOf (durationServer text rate) ≤ t →
      t ≤ (durationServer text rate : ℚ) - fadeTimeOf (durationServer text rate) →
      envAt (durationServer text rate) t = 1) ∧
    (∀ t : ℚ, (durationServer text rate : ℚ) -
        fadeTimeOf (durationServer text rate) < t →
      envAt (durationServer text rate) t =
        ((durationServer text rate : ℚ) - t) / fadeTimeOf (durationServer text rate)) ∧
    intSample sinT noise text rate pitch volume (durationServer text rate) 0 = 0 ∧
    |intSample sinT noise text rate pitch volume (durationServer text rate)
        (sampleRate * durationServer text rate - 1)| ≤ 6 ∧
    (∀ t1 t2 : ℚ, t1 < t2 → t2 < fadeTimeOf (durationServer text rate) →
      envAt (durationServer text rate) t1 < envAt (durationServer text rate) t2) ∧
    (∀ t1 t2 : ℚ, (durationServer text rate : ℚ) -
        fadeTimeOf (durationServer text rate) < t1 → t1 < t2 →
      envAt (durationServer text rate) t2 < envAt (durationServer text rate) t1) := by
  have hD2 : 2 ≤ durationServer text rate := two_le_durationServer text rate
  have hD1 : 1 ≤ durationServer text rate := le_trans (by norm_num) hD2
  have hDq : (2:ℚ) ≤ (durationServer text rate : ℚ) := by exact_mod_cast hD2
  have hft := fadeTimeOf_eq (durationServer text rate) hD2
  have hftpos : 0 < fadeTimeOf (durationServer text rate) :=
    fadeTimeOf_pos _ hD1
  have hsr : ((sampleRate : ℕ) : ℚ) = 44100 := by norm_num [sampleRate]
  refine ⟨hft, ?_, ?_, ?_, ?_, ?_, ?_, ?_⟩
  · intro t h
    rw [envAt, if_pos h]
  · intro t h1 h2
    rw [envAt, if_neg (by linarith), if_neg (by linarith)]
  · intro t h
    have hnf : ¬ (t < fadeTimeOf (durationServer text rate)) := by
      rw [hft] at h ⊢
      linarith
    rw [envAt, if_neg hnf, if_pos h]
  · have ht : ((0:ℕ):ℚ) / ((sampleRate : ℕ) : ℚ) = 0 := by norm_num
    have henv : envAt (durationServer text rate) 0 = 0 := by
      rw [envAt, if_pos hftpos]
      exact zero_div _
    have hfin : finalSample sinT noise text rate pitch volume
        (durationServer text rate) 0 = 0 := by
      rw [finalSample, ht, henv]
      ring
    rw [intSample, hfin]
    have hr0 : jsRound ((0:ℚ) * 32767) = 0 := by
      rw [show ((0:ℚ) * 32767) = 0 from by ring, jsRound,
        show ((0:ℚ) + 0.5) = 1/2 from by norm_num]
      rw [Int.floor_eq_iff] <;> norm_num
    rw [hr0]
    decide
  · have hNpos : 0 < sampleRate * durationServer text rate := by
      rw [sampleRate]; omega
    have hi : sampleRate * durationServer text rate - 1 <
        sampleRate * durationServer text rate := Nat.sub_lt hNpos one_pos
    have hcast : ((sampleRate * durationServer text rate - 1 : ℕ) : ℚ) =
        44100 * (durationServer text rate : ℚ) - 1 := by
      have h1 : 1 ≤ sampleRate * durationServer text rate := hNpos
      push_cast [Nat.cast_sub h1]
      norm_num [sampleRate]
    have ht : ((sampleRate * durationServer text rate - 1 : ℕ) : ℚ) /
        ((sampleRate : ℕ) : ℚ) = (durationServer text rate : ℚ) - 1/44100 := by
      rw [hcast, hsr]
      field_simp
      ring
    have henv : envAt (durationServer text rate)
        ((durationServer text rate : ℚ) - 1/44100) = 1/4410 := by
      rw [envAt, hft, if_neg (by linarith), if_pos (by linarith)]
      ring_nf
    have habs := abs_finalSample_le_env sinT noise text rate pitch volume
      (durationServer text rate) (sampleRate * durationServer text rate - 1)
      hsin (hnoise _).1 (hnoise _).2 hr1 hr2 hv1 hv2 hD1 hi
    rw [ht, henv] at habs
    have hpair := abs_le.mp habs
    have hru : jsRound (finalSample sinT noise text rate pitch volume
        (durationServer text rate) (sampleRate * durationServer text rate - 1) *
          32767) ≤ 6 := by
      have hlt : jsRound (finalSample sinT noise text rate pitch volume
          (durationServer text rate) (sampleRate * durationServer text rate - 1) *
            32767) < (7:ℤ) := by
        rw [jsRound]
        apply Int.floor_lt.mpr
        push_cast
        nlinarith [hpair.2]
      omega
    have hrl : (-6:ℤ) ≤ jsRound (finalSample sinT noise text rate pitch volume
        (durationServer text rate) (sampleRate * durationServer text rate - 1) *
          32767) := by
      rw [jsRound]
      apply Int.le_floor.mpr
      push_cast
      nlinarith [hpair.1]
    rw [intSample, min_eq_right (by linarith),
      max_eq_right (show (-32768:ℤ) ≤ jsRound (finalSample sinT noise text rate
        pitch volume (durationServer text rate)
        (sampleRate * durationServer text rate - 1) * 32767) from by linarith),
      abs_le]
    exact ⟨by linarith, by linarith⟩
  · intro t1 t2 h12 h2
    rw [envAt, if_pos (lt_trans h12 h2), envAt, if_pos h2]
    rw [div_lt_div_iff_of_pos_right hftpos]
    exact h12
  · intro t1 t2 h1 h12
    have hnf1 : ¬ (t1 < fadeTimeOf (durationServer text rate)) := by
      rw [hft] at h1 ⊢
      linarith
    have hnf2 : ¬ (t2 < fadeTimeOf (durationServer text rate)) := by
      rw [hft] at h1 ⊢
      linarith
    rw [envAt, if_neg hnf2, if_pos (by linarith), envAt, if_neg hnf1, if_pos h1]
    rw [div_lt_div_iff_of_pos_right hftpos]
    linarith

theorem envelope_properties_witness :
    (∀ x, |sinZero x| ≤ 1) ∧ (∀ j, 0 ≤ noiseZero j ∧ noiseZero j < 1) ∧
    ((1:ℚ)/10 ≤ 1) ∧ ((1:ℚ) ≤ 10) ∧ ((0:ℚ) ≤ 1) ∧ ((1:ℚ) ≤ 1) ∧
    fadeTimeOf (durationServer "ab".toList 1) = 1/10 ∧
    intSample sinZero noiseZero "ab".toList 1 1 1 (durationServer "ab".toList 1) 0 = 0 :=
  ⟨fun x => by simp [sinZero], fun j => by simp [noiseZero],
    by norm_num, by norm_num, by norm_num, by norm_num,
    (envelope_properties sinZero noiseZero "ab".toList 1 1 1
      (fun x => by simp [sinZero]) (fun j => by simp [noiseZero])
      (by norm_num) (by norm_num) (by norm_num) (by norm_num)).1,
    (envelope_properties sinZero noiseZero "ab".toList 1 1 1
      (fun x => by simp [sinZero]) (fun j => by simp [noiseZero])
      (by norm_num) (by norm_num) (by norm_num) (by norm_num)).2.2.2.2.1⟩

/-! ### Character index lemmas -/

theorem charIndexAt_lt (L N i : ℕ) (hL : 0 < L) (hN : 0 < N) (hi : i < N) :
    charIndexAt L N i < L := by
  have hNq : (0:ℚ) < (N:ℚ) := by exact_mod_cast hN
  have hLq : (0:ℚ) < (L:ℚ) := by exact_mod_cast hL
  have hq : ((i:ℚ) / (N:ℚ)) * (L:ℚ) < (L:ℚ) := by
    have hlt : (i:ℚ) / (N:ℚ) < 1 := by
      rw [div_lt_one hNq]
      exact_mod_cast hi
    nlinarith
  have hfl : Int.floor (((i:ℚ) / (N:ℚ)) * (L:ℚ)) < (L:ℤ) :=
    Int.floor_lt.mpr (by exact_mod_cast hq)
  rw [charIndexAt]
  omega

theorem charAt_mem (text : List Char) (N i : ℕ) (hne : text ≠ [])
    (hN : 0 < N) (hi : i < N) : charAt text N i ∈ text := by
  have hlt := charIndexAt_lt text.length N i (List.length_pos.mpr hne) hN hi
  rw [charAt, List.getD_eq_getElem _ _ hlt]
  exact List.getElem_mem _

/-- C8: on a vowel-only text the synthesizer consults no randomness, so
two runs with arbitrary noise sources produce bit-identical sample
buffers and containers. -/
theorem vowel_determinism (sinT : ℚ → ℚ) (noise1 noise2 : ℕ → ℚ)
    (text : List Char) (rate pitch volume : ℚ) (hne : text ≠ [])
    (hv : ∀ c ∈ text, c ∈ vowels) :
    sampleBuffer sinT noise1 text rate pitch volume (durationServer text rate) =
      sampleBuffer sinT noise2 text rate pitch volume (durationServer text rate) ∧
    generateAudioWAV sinT noise1 text rate pitch volume =
      generateAudioWAV sinT noise2 text rate pitch volume := by
  have hvfacts : ∀ c ∈ vowels, c ≠ ' ' ∧ isVowel c = true := by decide
  have hN : 0 < sampleRate * durationServer text rate := by
    have := two_le_durationServer text rate
    rw [sampleRate]
    omega
  have hsample : ∀ i, i < sampleRate * durationServer text rate →
      intSample sinT noise1 text rate pitch volume (durationServer text rate) i =
        intSample sinT noise2 text rate pitch volume (durationServer text rate) i := by
    intro i hi
    have hmem := charAt_mem text (sampleRate * durationServer text rate) i hne hN hi
    obtain ⟨hns, hvw⟩ := hvfacts _ (hv _ hmem)
    have hbr : branchSample sinT noise1 text pitch
        (sampleRate * durationServer text rate) i =
        branchSample sinT noise2 text pitch
          (sampleRate * durationServer text rate) i := by
      rw [branchSample, branchSample, if_neg hns, if_neg hns, if_pos hvw, if_pos hvw]
    rw [intSample, intSample, finalSample, finalSample, hbr]
  have hbuf : sampleBuffer sinT noise1 text rate pitch volume
      (durationServer text rate) =
      sampleBuffer sinT noise2 text rate pitch volume (durationServer text rate) := by
    rw [sampleBuffer, sampleBuffer]
    apply List.map_congr_left
    intro i hi
    exact hsample i (List.mem_range.mp hi)
  refine ⟨hbuf, ?_⟩
  rw [generateAudioWAV, generateAudioWAV, hbuf]

theorem vowel_determinism_witness :
    ("aaaa".toList ≠ []) ∧ (∀ c ∈ "aaaa".toList, c ∈ vowels) ∧
    (sampleBuffer sinZero noiseZero "aaaa".toList 1 1 1
        (durationServer "aaaa".toList 1) =
      sampleBuffer sinZero noiseHalf "aaaa".toList 1 1 1
        (durationServer "aaaa".toList 1) ∧
     generateAudioWAV sinZero noiseZero "aaaa".toList 1 1 1 =
       generateAudioWAV sinZero noiseHalf "aaaa".toList 1 1 1) :=
  ⟨by decide, by decide,
    vowel_determinism sinZero noiseZero noiseHalf "aaaa".toList 1 1 1
      (by decide) (by decide)⟩

/-- C5 (amended): when the character the sample maps to is the space
character, the pre-envelope, pre-volume sample value is exactly 0. The
original claim, stated for every whitespace character, fails: only the
space character takes the silent branch. -/
theorem space_char_silence (sinT : ℚ → ℚ) (noise : ℕ → ℚ) (text : List Char)
    (pitch : ℚ) (N i : ℕ) (h : charAt text N i = ' ') :
    branchSample sinT noise text pitch N i = 0 := by
  rw [branchSample, if_pos h]

theorem space_char_silence_witness :
    charAt "a ".toList (sampleRate * durationServer "a ".toList 1) 44100 = ' ' ∧
    branchSample sinZero noiseZero "a ".toList 1
      (sampleRate * durationServer "a ".toList 1) 44100 = 0 := by
  have hdur : durationServer "a ".toList 1 = 2 := by
    rw [durationServer, show serverWordCount "a ".toList = 1 from by decide]
    norm_num
    rfl
  have hidx : charIndexAt ("a ".toList).length (sampleRate * 2) 44100 = 1 := by
    rw [charIndexAt, show ("a ".toList).length = 2 from by decide,
      show sampleRate * 2 = 88200 from by rw [sampleRate]]
    rw [show ((44100:ℕ):ℚ) / ((88200:ℕ):ℚ) * ((2:ℕ):ℚ) = 1 from by norm_num]
    rw [show Int.floor ((1:ℚ)) = 1 from Int.floor_one]
    rfl
  have hchar : charAt "a ".toList (sampleRate * durationServer "a ".toList 1)
      44100 = ' ' := by
    rw [hdur, charAt, hidx]
    decide
  exact ⟨hchar, space_char_silence sinZero noiseZero "a ".toList 1 _ 44100 hchar⟩

/-- C5 (counterexample): the tab character is whitespace, and for the
valid request with text consisting of a letter followed by a tab, the
sample at index 44100 maps to the tab, yet the pre-envelope sample is
-0.15 under the admissible model with zero sine and zero noise draws,
not 0: non-space whitespace takes the consonant branch. -/
theorem whitespace_silence_cex :
    (∀ x, |sinZero x| ≤ 1) ∧ (∀ j, 0 ≤ noiseZero j ∧ noiseZero j < 1) ∧
    (jsTrim "a\t".toList).length ≠ 0 ∧ ("a\t".toList).length ≤ 5000 ∧
    jsWs (charAt "a\t".toList
      (sampleRate * durationServer "a\t".toList 1) 44100) = true ∧
    branchSample sinZero noiseZero "a\t".toList 1
      (sampleRate * durationServer "a\t".toList 1) 44100 ≠ 0 := by
  have hdur : durationServer "a\t".toList 1 = 2 := by
    rw [durationServer, show serverWordCount "a\t".toList = 1 from by decide]
    norm_num
    rfl
  have hidx : charIndexAt ("a\t".toList).length (sampleRate * 2) 44100 = 1 := by
    rw [charIndexAt, show ("a\t".toList).length = 2 from by decide,
      show sampleRate * 2 = 88200 from by rw [sampleRate]]
    rw [show ((44100:ℕ):ℚ) / ((88200:ℕ):ℚ) * ((2:ℕ):ℚ) = 1 from by norm_num]
    rw [show Int.floor ((1:ℚ)) = 1 from Int.floor_one]
    rfl
  have hchar : charAt "a\t".toList (sampleRate * durationServer "a\t".toList 1)
      44100 = '\t' := by
    rw [hdur, charAt, hidx]
    decide
  refine ⟨fun x => by simp [sinZero], fun j => by simp [noiseZero],
    by decide, by decide, by rw [hchar]; decide, ?_⟩
  rw [branchSample, hchar]
  rw [if_neg (by decide), if_neg (by decide)]
  rw [consSampleAt]
  simp only [sinZero, noiseZero]
  norm_num

/-! ### Trimmed-text lemmas for the client and server duration paths -/

theorem dropWhile_eq_self_of_length {α : Type} (p : α → Bool) (l : List α)
    (h : (l.dropWhile p).length = l.length) : l.dropWhile p = l := by
  cases l with
  | nil => rfl
  | cons c cs =>
    by_cases hp : p c
    · exfalso
      rw [List.dropWhile_cons_of_pos hp] at h
      have := dropWhile_length_le p cs
      simp at h
      omega
    · exact List.dropWhile_cons_of_neg hp

theorem jsTrim_eq_self_parts (l : List Char) (h : jsTrim l = l) :
    l.dropWhile jsWs = l ∧ l.reverse.dropWhile jsWs = l.reverse := by
  have hlen : (jsTrim l).length = l.length := by rw [h]
  rw [jsTrim, List.length_reverse] at hlen
  have h1 : (l.dropWhile jsWs).length = l.length := by
    have a := dropWhile_length_le jsWs l
    have b := dropWhile_length_le jsWs (l.dropWhile jsWs).reverse
    rw [List.length_reverse] at b
    omega
  have hd1 : l.dropWhile jsWs = l := dropWhile_eq_self_of_length _ _ h1
  refine ⟨hd1, ?_⟩
  rw [jsTrim, hd1] at h
  have h2 := congrArg List.reverse h
  rwa [List.reverse_reverse] at h2

theorem head_not_ws_of (l : List Char) (h : l.dropWhile jsWs = l) :
    ∀ c, l.head? = some c → jsWs c = false := by
  intro c hc
  cases l with
  | nil => simp at hc
  | cons a as =>
    simp only [List.head?_cons, Option.some.injEq] at hc
    subst hc
    by_contra hw
    simp only [Bool.not_eq_false] at hw
    rw [List.dropWhile_cons_of_pos hw] at h
    have hle := dropWhile_length_le jsWs as
    have hl := congrArg List.length h
    simp at hl
    omega

/-- Under the invariants carried by the split, every token emitted by
wsAux is nonempty: the text does not end in whitespace, and either a
token is in progress or the text does not start in whitespace. -/
theorem wsAux_tokens_nonempty (l : List Char) : ∀ (sk : Bool) (acc : List Char),
    (l = [] → (sk = false ∧ acc ≠ [])) →
    (∀ c, l.getLast? = some c → jsWs c = false) →
    (sk = false → acc = [] → ∀ c, l.head? = some c → jsWs c = false) →
    ∀ t ∈ wsAux sk l acc, t ≠ [] := by
  induction l with
  | nil =>
    intro sk acc h1 _ _ t ht
    obtain ⟨hsk, hacc⟩ := h1 rfl
    subst hsk
    simp only [wsAux, List.mem_singleton] at ht
    subst ht
    simpa using hacc
  | cons c cs ih =>
    intro sk acc h1 h2 h3 t ht
    by_cases hc : jsWs c
    · have hcs : cs ≠ [] := by
        intro hnil
        subst hnil
        have := h2 c (by simp)
        rw [hc] at this
        cases this
      have hlast : ∀ c', cs.getLast? = some c' → jsWs c' = false := by
        intro c' hc'
        apply h2
        obtain ⟨d, ds, rfl⟩ := List.exists_cons_of_ne_nil hcs
        rw [List.getLast?_cons_cons]
        exact hc'
      cases sk with
      | true =>
        simp only [wsAux, hc, if_true] at ht
        exact ih true [] (fun hnil => absurd hnil hcs) hlast
          (fun hf => by cases hf) t ht
      | false =>
        have hacc : acc ≠ [] := by
          intro hnil
          have := h3 rfl hnil c (by simp)
          rw [hc] at this
          cases this
        simp only [wsAux, hc, if_true, Bool.false_eq_true, if_false,
          List.mem_cons] at ht
        rcases ht with ht | ht
        · subst ht
          simpa using hacc
        · exact ih true [] (fun hnil => absurd hnil hcs) hlast
            (fun hf => by cases hf) t ht
    · simp only [wsAux, hc, if_false, Bool.false_eq_true] at ht
      refine ih false (c :: acc) (fun _ => ⟨rfl, by simp⟩) ?_
        (fun _ hnil => by cases hnil) t ht
      intro c' hc'
      apply h2
      cases cs with
      | nil => simp at hc'
      | cons d ds =>
        rw [List.getLast?_cons_cons]
        exact hc'

/-- For nonempty text that equals its own trim, every token of the
whitespace split is nonempty. -/
theorem wsplit_tokens_nonempty (l : List Char) (htrim : jsTrim l = l)
    (hne : l ≠ []) : ∀ t ∈ wsplit l, t ≠ [] := by
  obtain ⟨hd, hrev⟩ := jsTrim_eq_self_parts l htrim
  apply wsAux_tokens_nonempty l false []
  · intro h
    exact absurd h hne
  · intro c hc
    apply head_not_ws_of l.reverse hrev c
    rw [List.head?_reverse]
    exact hc
  · intro _ _ c hc
    exact head_not_ws_of l hd c hc

/-- For nonempty trimmed text the client and server word counts agree. -/
theorem wordCounts_eq_of_trimmed (l : List Char) (htrim : jsTrim l = l)
    (hne : l ≠ []) : clientWordCount l = serverWordCount l := by
  rw [clientWordCount, serverWordCount,
    List.filter_eq_self.mpr (fun t ht => ?_)]
  have := wsplit_tokens_nonempty l htrim hne t ht
  simpa [List.length_pos] using this

/-- C7 (amended): the client placeholder path and the server path share
the constants 155 words per minute and the factor 60, but the client
counts the empty split tokens and floors the ceiled estimate at 1 where
the server floors at 2. For text with no surrounding whitespace the two
word counts coincide, and when additionally the ceiled raw duration is
at least 2 the two computed durations agree. -/
theorem durations_agree_on_trimmed (text : List Char) (rate : ℚ)
    (htrim : jsTrim text = text) (hne : text ≠ [])
    (hceil : 2 ≤ Int.ceil (estimateDuration text rate)) :
    estimateDuration text rate =
      ((serverWordCount text : ℚ) / (155 * rate)) * 60 ∧
    clientPlaceholderDuration text rate = durationServer text rate := by
  have hwc := wordCounts_eq_of_trimmed text htrim hne
  have heq : estimateDuration text rate =
      ((serverWordCount text : ℚ) / (155 * rate)) * 60 := by
    rw [estimateDuration, hwc]
  refine ⟨heq, ?_⟩
  rw [clientPlaceholderDuration, heq, durationServer_eq]
  rw [heq] at hceil
  omega

theorem durations_agree_on_trimmed_witness :
    (jsTrim "a a a a a a".toList = "a a a a a a".toList) ∧
    ("a a a a a a".toList ≠ []) ∧
    (2 ≤ Int.ceil (estimateDuration "a a a a a a".toList 1)) ∧
    (estimateDuration "a a a a a a".toList 1 =
      ((serverWordCount "a a a a a a".toList : ℚ) / (155 * 1)) * 60 ∧
     clientPlaceholderDuration "a a a a a a".toList 1 =
       durationServer "a a a a a a".toList 1) := by
  have hest : estimateDuration "a a a a a a".toList 1 = 72/31 := by
    rw [estimateDuration, show clientWordCount "a a a a a a".toList = 6 from by decide]
    push_cast
    norm_num
  have hceil : 2 ≤ Int.ceil (estimateDuration "a a a a a a".toList 1) := by
    rw [hest]
    have h := Int.lt_ceil.mpr (show ((1:ℤ):ℚ) < 72/31 from by norm_num)
    omega
  exact ⟨by decide, by decide, hceil,
    durations_agree_on_trimmed "a a a a a a".toList 1 (by decide) (by decide) hceil⟩

/-- C7 (counterexample): on the valid trimmed text Hi with rate 1 the
client placeholder duration is 1 second while the server duration is 2
seconds, so the two duration computations do not agree as functions of
text and rate. -/
theorem client_server_duration_cex :
    clientPlaceholderDuration "Hi".toList 1 = 1 ∧
    durationServer "Hi".toList 1 = 2 ∧
    clientPlaceholderDuration "Hi".toList 1 ≠ durationServer "Hi".toList 1 := by
  have h1 : clientPlaceholderDuration "Hi".toList 1 = 1 := by
    rw [clientPlaceholderDuration, estimateDuration,
      show clientWordCount "Hi".toList = 1 from by decide]
    rw [show ((1:ℕ):ℚ)/(155*1)*60 = 12/31 from by push_cast; norm_num]
    rw [show Int.ceil ((12:ℚ)/31) = 1 from by rw [Int.ceil_eq_iff]; norm_num]
    rfl
  have h2 : durationServer "Hi".toList 1 = 2 := by
    rw [durationServer, show serverWordCount "Hi".toList = 1 from by decide]
    norm_num
    rfl
  exact ⟨h1, h2, by omega⟩
